import Mathlib

/-!
Verification of the genzero SPMC "latest value" channel (src/src/lib.rs).

The library publishes values through a single atomically swapped pointer
(`Arc<Atomic<T>>`) and reclaims old values with crossbeam-epoch deferred
reclamation.  We embed the shared state as an explicit record: a heap of
allocated values keyed by fresh addresses, the slot pointer, and the
epoch-reclamation machinery (global epoch, pinned participants, deferred
garbage bags).  crossbeam-epoch itself is an external crate; its operations
(pin, try_advance, collect, retire, flush) are modelled from the spec's
Epoch Registry contract (spec sections 4.1 and 4.3).

Sequential executions interleave the operations of the one writer, any
number of readers, and the reclamation engine at operation granularity;
the opportunistic advance/collect steps that crossbeam may run inside any
pin are exposed as explicit adversary operations `advanceOp`/`collectOp`,
so every theorem quantifying over operation lists covers every timing of
those steps.
-/

namespace Genzero

/-- The shared state of one channel: the heap of live allocations
(address, payload), the allocation counter (addresses are never reused,
modelling provenance), the Slot pointer (`Arc<Atomic<T>>`, `None` = null),
the epoch registry (modelled from the spec), the writer's thread-local
deferred-destruction bag and the global garbage queue (entries are
(address, retirement epoch)), and a ghost history `retiredLog` of every
retirement ever performed (never erased; purely for specification).
`slotTag`/`sendCount` are ghost send-order indices: the value produced by
the i-th send carries tag i (the initial value of `new` has tag 0). -/
structure GState (T : Type) where
  heap : List (Nat × T)
  nextAddr : Nat
  slot : Option Nat
  slotTag : Option Nat
  sendCount : Nat
  globalEpoch : Nat
  pins : List (Nat × Nat)
  nextPid : Nat
  writerBag : List (Nat × Nat)
  globalGarbage : List (Nat × Nat)
  retiredLog : List (Nat × Nat)

/-- Heap lookup: the value stored at address `a`, if `a` is live. -/
def heapLookup {T : Type} : List (Nat × T) → Nat → Option T
  | [], _ => none
  | (a, v) :: h, b => if a = b then some v else heapLookup h b

/-- Free address `a`: remove every heap cell with that address. -/
def heapRemove {T : Type} : List (Nat × T) → Nat → List (Nat × T)
  | [], _ => []
  | (a, v) :: h, b => if a = b then heapRemove h b else (a, v) :: heapRemove h b

/-- Addresses of a garbage list. -/
def addrsOf (l : List (Nat × Nat)) : List Nat := l.map Prod.fst

/-- `genzero::new(v)` (lib.rs 95-102): allocate `v` (`Atomic::new`) and
point the shared slot at it.  The initial value counts as send number 0. -/
def newChan {T : Type} (v : T) : GState T :=
  { heap := [(0, v)], nextAddr := 1, slot := some 0, slotTag := some 0,
    sendCount := 0, globalEpoch := 0, pins := [], nextPid := 0,
    writerBag := [], globalGarbage := [], retiredLog := [] }

/-- `genzero::empty()` (lib.rs 107-114): the slot starts null. -/
def emptyChan {T : Type} : GState T :=
  { heap := [], nextAddr := 0, slot := none, slotTag := none,
    sendCount := 0, globalEpoch := 0, pins := [], nextPid := 0,
    writerBag := [], globalGarbage := [], retiredLog := [] }

/-- Modelled from the spec: `EpochRegistry.retire(ptr, epoch)` (spec 4.1),
reached through crossbeam's `guard.defer_destroy` (the crate is not part
of this repository).  Appends the retired address tagged with the current
global epoch to the writer's thread-local bag, and records it in the
ghost history. -/
def retire {T : Type} (s : GState T) (a : Nat) : GState T :=
  { s with writerBag := (a, s.globalEpoch) :: s.writerBag,
           retiredLog := (a, s.globalEpoch) :: s.retiredLog }

/-- `Sender::send` (lib.rs 118-126): allocate the new value
(`Owned::new`), atomically swap it into the slot, and if the previous
pointer was non-null hand it to deferred destruction.  The transient
guard of `send` pins and unpins within the call and is elided; the
advance/collect work crossbeam may do inside that pin is covered by the
explicit `advanceOp`/`collectOp` adversary operations. -/
def sendStep {T : Type} (s : GState T) (v : T) : GState T :=
  let a := s.nextAddr
  let s1 : GState T :=
    { s with heap := (a, v) :: s.heap, nextAddr := a + 1,
             slot := some a, slotTag := some (s.sendCount + 1),
             sendCount := s.sendCount + 1 }
  match s.slot with
  | none => s1
  | some p => retire s1 p

/-- Modelled from the spec: `pin()` (spec 4.1) registers a participant
whose local epoch is the global epoch observed at pin time. -/
def pinNew {T : Type} (s : GState T) : GState T :=
  { s with pins := (s.nextPid, s.globalEpoch) :: s.pins,
           nextPid := s.nextPid + 1 }

/-- Modelled from the spec: `unpin` (spec 4.1) deactivates a participant. -/
def unpin {T : Type} (s : GState T) (pid : Nat) : GState T :=
  { s with pins := s.pins.filter (fun q => q.1 != pid) }

/-- Modelled from the spec: `try_advance()` (spec 4.1) moves the global
epoch forward one step only when every active participant's local epoch
equals the global epoch; otherwise it is a no-op. -/
def tryAdvance {T : Type} (s : GState T) : GState T :=
  if s.pins.all (fun q => q.2 == s.globalEpoch) then
    { s with globalEpoch := s.globalEpoch + 1 }
  else s

/-- Modelled from the spec: `collect()` (spec 4.1) frees every global
garbage entry whose retirement epoch is at least two steps behind the
global epoch. -/
def collectStep {T : Type} (s : GState T) : GState T :=
  let fr := s.globalGarbage.filter (fun e => decide (e.2 + 2 ≤ s.globalEpoch))
  { s with globalGarbage :=
             s.globalGarbage.filter (fun e => decide (¬ (e.2 + 2 ≤ s.globalEpoch))),
           heap := fr.foldl (fun h e => heapRemove h e.1) s.heap }

/-- Modelled from the spec: the bag-migration part of crossbeam's
`Guard::flush` — the thread-local deferred items move to the global
garbage queue. -/
def flushBag {T : Type} (s : GState T) : GState T :=
  { s with globalGarbage := s.globalGarbage ++ s.writerBag, writerBag := [] }

/-- `Drop for Sender` (lib.rs 76-92): pin, swap the slot to null with the
strongest ordering, defer-destroy the previous value if non-null, then
`guard.flush()` — which migrates the thread-local bag to the global queue
and makes one opportunistic advance/collect attempt (crossbeam behaviour,
modelled from the spec's registry contract) — and finally unpin. -/
def dropSenderStep {T : Type} (s : GState T) : GState T :=
  let pid := s.nextPid
  let s0 := pinNew s
  let s1 : GState T := { s0 with slot := none, slotTag := none }
  let s2 := match s.slot with
    | none => s1
    | some p => retire s1 p
  unpin (collectStep (tryAdvance (flushBag s2))) pid

/-- `Borrow<T>` (lib.rs 132-138): a held guard (`pid` names the pinned
participant) plus the raw pointer loaded from the slot. -/
structure Borrow where
  pid : Nat
  addr : Nat

/-- `Receiver::borrow` (lib.rs 155-166): pin, `load_consume`, return
`None` when the pointer is null (the guard drops, releasing the pin, so
the net state is unchanged), otherwise a `Borrow` owning the pin. -/
def borrowStep {T : Type} (s : GState T) : GState T × Option Borrow :=
  match s.slot with
  | none => (s, none)
  | some a => (pinNew s, some ⟨s.nextPid, a⟩)

/-- `Deref for Borrow` (lib.rs 140-148): read through the saved pointer.
The `Option` result models the `unwrap`: `none` would be the unreachable
null/dangling case. -/
def derefBorrow {T : Type} (s : GState T) (b : Borrow) : Option T :=
  heapLookup s.heap b.addr

/-- `Receiver::recv` (lib.rs 173-181): pin, `load_consume`, clone the
pointee if non-null.  Cloning a plain value is the identity, so the model
returns the stored payload itself. -/
def recv {T : Type} (s : GState T) : Option T :=
  match s.slot with
  | none => none
  | some a => heapLookup s.heap a

/-- One shared-state operation of an execution: the writer's `send` and
its destructor, creating a borrow, dropping a borrow (unpinning it),
dropping a `Receiver` (only an `Arc` refcount decrement — no shared-state
effect while the slot machinery is reachable), and the reclamation
engine's opportunistic advance/collect steps, which crossbeam may run
inside any pin. -/
inductive Op (T : Type) where
  | send (v : T)
  | dropSender
  | doBorrow
  | dropBorrow (pid : Nat)
  | dropReceiver
  | advanceOp
  | collectOp

/-- Apply one operation. -/
def step {T : Type} (s : GState T) : Op T → GState T
  | Op.send v => sendStep s v
  | Op.dropSender => dropSenderStep s
  | Op.doBorrow => (borrowStep s).1
  | Op.dropBorrow pid => unpin s pid
  | Op.dropReceiver => s
  | Op.advanceOp => tryAdvance s
  | Op.collectOp => collectStep s

/-- Run a list of operations. -/
def run {T : Type} (s : GState T) (ops : List (Op T)) : GState T :=
  ops.foldl step s

/-- `true` when the operation list performs no `send`. -/
def noSend {T : Type} (ops : List (Op T)) : Bool :=
  ops.all (fun o => match o with | Op.send _ => false | _ => true)

/-- `true` when the operation list never drops the borrow pinned as `pid`. -/
def noDropBorrow {T : Type} (pid : Nat) (ops : List (Op T)) : Bool :=
  ops.all (fun o => match o with | Op.dropBorrow q => q != pid | _ => true)

/-- Reachable-state invariant: allocation and pid counters bound every
recorded address/pid; every active pin's local epoch is at most one step
behind the global epoch (the grace-period core); the slot pointer is live
in the heap and is not retired; retirement history has no duplicates; the
ghost send tag never exceeds the send counter. -/
def GoodState {T : Type} (s : GState T) : Prop :=
  (∀ p ∈ s.heap, p.1 < s.nextAddr) ∧
  (∀ q ∈ s.pins, q.1 < s.nextPid) ∧
  (∀ q ∈ s.pins, q.2 ≤ s.globalEpoch ∧ s.globalEpoch ≤ q.2 + 1) ∧
  (∀ e ∈ s.writerBag, e.1 < s.nextAddr) ∧
  (∀ e ∈ s.globalGarbage, e.1 < s.nextAddr) ∧
  (∀ e ∈ s.retiredLog, e.1 < s.nextAddr) ∧
  (addrsOf s.retiredLog).Nodup ∧
  (∀ a ∈ s.slot.toList, a < s.nextAddr) ∧
  (∀ a ∈ s.slot.toList, (heapLookup s.heap a).isSome = true) ∧
  (∀ a ∈ s.slot.toList, a ∉ addrsOf s.writerBag) ∧
  (∀ a ∈ s.slot.toList, a ∉ addrsOf s.globalGarbage) ∧
  (∀ a ∈ s.slot.toList, a ∉ addrsOf s.retiredLog) ∧
  (∀ k ∈ s.slotTag.toList, k ≤ s.sendCount)

theorem recv_sendStep {T : Type} (s : GState T) (v : T) :
    recv (sendStep s v) = some v := by
  cases hs : s.slot with
  | none => simp [sendStep, hs, recv, heapLookup]
  | some p => simp [sendStep, hs, recv, retire, heapLookup]

theorem run_append {T : Type} (s : GState T) (l1 l2 : List (Op T)) :
    run s (l1 ++ l2) = run (run s l1) l2 := by
  simp [run, List.foldl_append]

/-- C7: immediately after `new(v)` a `recv` returns `v`; immediately
after `empty()` a `recv` returns `none`; and in either case a `recv`
after a subsequent `send x` returns `x`. -/
theorem recv_initial_scenarios {T : Type} (v x : T) :
    recv (newChan v) = some v ∧
    recv (emptyChan : GState T) = none ∧
    recv (sendStep (newChan v) x) = some x ∧
    recv (sendStep (emptyChan : GState T) x) = some x := by
  refine ⟨?_, rfl, recv_sendStep _ x, recv_sendStep _ x⟩
  simp [recv, newChan, heapLookup]

/-- C1: on a channel created empty, after the sends of `v1 .. vn`
(`n ≥ 1`) have all completed, `recv` returns the last value sent. -/
theorem recv_after_sends {T : Type} (vs : List T) (h : vs ≠ []) :
    recv (run (emptyChan : GState T) (vs.map Op.send)) = some (vs.getLast h) := by
  induction vs using List.reverseRecOn with
  | nil => exact absurd rfl h
  | append_singleton ws w ih =>
    have hrun : run (emptyChan : GState T) ((ws ++ [w]).map Op.send)
        = sendStep (run (emptyChan : GState T) (ws.map Op.send)) w := by
      simp [List.map_append, run_append, run, step]
    rw [hrun, List.getLast_append]
    exact recv_sendStep _ w

/-- Witness for C1 at a concrete channel: sending 1, 2, 3 on an empty
channel and then receiving yields 3. -/
theorem recv_after_sends_witness :
    recv (run (emptyChan : GState Nat) ([1, 2, 3].map Op.send)) = some 3 := by
  simpa using recv_after_sends [1, 2, 3] (by simp)

theorem slot_tryAdvance {T : Type} (s : GState T) : (tryAdvance s).slot = s.slot := by
  unfold tryAdvance; split <;> rfl

theorem slot_pipeline {T : Type} (s : GState T) (pid : Nat) :
    (unpin (collectStep (tryAdvance (flushBag s))) pid).slot = s.slot := by
  unfold unpin collectStep tryAdvance flushBag
  split <;> rfl

theorem writerBag_pipeline {T : Type} (s : GState T) (pid : Nat) :
    (unpin (collectStep (tryAdvance (flushBag s))) pid).writerBag = [] := by
  unfold unpin collectStep tryAdvance flushBag
  split <;> rfl

theorem retiredLog_pipeline {T : Type} (s : GState T) (pid : Nat) :
    (unpin (collectStep (tryAdvance (flushBag s))) pid).retiredLog = s.retiredLog := by
  unfold unpin collectStep tryAdvance flushBag
  split <;> rfl

theorem garbage_pipeline_mem {T : Type} (s : GState T) (pid p g : Nat)
    (hmem : (p, g) ∈ s.globalGarbage ++ s.writerBag)
    (hg : s.globalEpoch ≤ g) :
    (p, g) ∈ (unpin (collectStep (tryAdvance (flushBag s))) pid).globalGarbage := by
  unfold unpin collectStep tryAdvance flushBag
  split <;> simp only [List.mem_filter] <;> exact ⟨hmem, by simp; omega⟩

theorem slot_dropSenderStep {T : Type} (s : GState T) :
    (dropSenderStep s).slot = none := by
  unfold dropSenderStep
  cases hs : s.slot with
  | none => rw [slot_pipeline]
  | some p => rw [slot_pipeline]; rfl

theorem slot_step_none {T : Type} (s : GState T) (o : Op T) (hs : s.slot = none)
    (ho : (match o with | Op.send _ => false | _ => true) = true) :
    (step s o).slot = none := by
  cases o with
  | send v => simp at ho
  | dropSender => exact slot_dropSenderStep s
  | doBorrow => simp [step, borrowStep, hs]
  | dropBorrow pid => simpa [step, unpin] using hs
  | dropReceiver => exact hs
  | advanceOp => simpa [step, slot_tryAdvance] using hs
  | collectOp => simpa [step, collectStep] using hs

theorem slot_run_none {T : Type} (s : GState T) (ops : List (Op T))
    (hs : s.slot = none) (h : noSend ops = true) : (run s ops).slot = none := by
  induction ops generalizing s with
  | nil => exact hs
  | cons o rest ih =>
    rw [noSend, List.all_cons, Bool.and_eq_true] at h
    exact ih (step s o) (slot_step_none s o hs h.1) h.2

/-- C3: once the `Sender` has been dropped, every later `recv` returns
`none` and every later `borrow` returns `none`, whatever was sent before
the drop and whatever non-send operations (borrows, borrow drops,
receiver drops, epoch advances, collections) happen in between. -/
theorem recv_borrow_after_sender_drop {T : Type} (s : GState T)
    (ops : List (Op T)) (h : noSend ops = true) :
    recv (run (dropSenderStep s) ops) = none ∧
    (borrowStep (run (dropSenderStep s) ops)).2 = none := by
  have hn : (run (dropSenderStep s) ops).slot = none :=
    slot_run_none _ ops (slot_dropSenderStep s) h
  exact ⟨by simp [recv, hn], by simp [borrowStep, hn]⟩

/-- Witness for C3: after `new 42` and a sender drop, a `recv` following
a borrow attempt, an epoch advance, a collection and a receiver drop
still returns `none`, and so does the final borrow. -/
theorem recv_borrow_after_sender_drop_witness :
    recv (run (dropSenderStep (newChan (42 : Nat)))
          [Op.doBorrow, Op.advanceOp, Op.collectOp, Op.dropReceiver]) = none ∧
    (borrowStep (run (dropSenderStep (newChan (42 : Nat)))
          [Op.doBorrow, Op.advanceOp, Op.collectOp, Op.dropReceiver])).2 = none :=
  recv_borrow_after_sender_drop (newChan 42) _ (by decide)

/-- C4 counterexample: the claim says the Sender's destructor reclaims
the last retired value before returning, leaving no garbage pending.  On
the channel `new 42`, after `drop(tx)` the retired value is still sitting
in the global garbage queue and its allocation is still live: the single
`guard.flush()` migrates the deferred item and cannot advance the epoch
far enough to free an item retired in the current epoch. -/
theorem sender_drop_reclaims_cex :
    (dropSenderStep (newChan (42 : Nat))).globalGarbage ≠ [] ∧
    heapLookup (dropSenderStep (newChan (42 : Nat))).heap 0 = some 42 := by
  decide

/-- C4 (amended): the Sender's destructor swaps the Slot to empty,
retires the swapped-out value exactly when it was non-null, and flushes
the thread-local deferred bag to the global queue (leaving the local bag
empty) with a single opportunistic advance/collect attempt; the value it
just retired remains pending in the global garbage queue when the
destructor returns rather than being synchronously reclaimed. -/
theorem sender_drop_flush {T : Type} (s : GState T) :
    (dropSenderStep s).slot = none ∧
    (dropSenderStep s).writerBag = [] ∧
    (s.slot = none → (dropSenderStep s).retiredLog = s.retiredLog) ∧
    (∀ p, s.slot = some p →
      (dropSenderStep s).retiredLog = (p, s.globalEpoch) :: s.retiredLog ∧
      (p, s.globalEpoch) ∈ (dropSenderStep s).globalGarbage) := by
  refine ⟨slot_dropSenderStep s, ?_, ?_, ?_⟩
  · unfold dropSenderStep
    cases hs : s.slot with
    | none => rw [writerBag_pipeline]
    | some p => rw [writerBag_pipeline]
  · intro hs
    unfold dropSenderStep
    rw [hs, retiredLog_pipeline]
    rfl
  · intro p hs
    unfold dropSenderStep
    rw [hs]
    constructor
    · rw [retiredLog_pipeline]; rfl
    · exact garbage_pipeline_mem _ _ p s.globalEpoch (by simp [retire, flushBag, pinNew]) (le_refl _)

/-- Witness for C4 (amended) on the channel `new 7`: after the sender
drop the local bag is empty and the retired initial value is pending in
the global queue. -/
theorem sender_drop_flush_witness :
    (dropSenderStep (newChan (7 : Nat))).writerBag = [] ∧
    (0, 0) ∈ (dropSenderStep (newChan (7 : Nat))).globalGarbage :=
  ⟨(sender_drop_flush (newChan 7)).2.1,
   ((sender_drop_flush (newChan 7)).2.2.2 0 rfl).2⟩

theorem heapLookup_cons_ne {T : Type} (h : List (Nat × T)) (a b : Nat) (v : T)
    (hne : a ≠ b) : heapLookup ((a, v) :: h) b = heapLookup h b := by
  simp [heapLookup, hne]

theorem mem_heapRemove {T : Type} {h : List (Nat × T)} {c : Nat} {p : Nat × T}
    (hp : p ∈ heapRemove h c) : p ∈ h := by
  induction h with
  | nil => simp [heapRemove] at hp
  | cons x t ih =>
    obtain ⟨a, v⟩ := x
    by_cases hc : a = c
    · simp only [heapRemove, if_pos hc] at hp
      exact List.mem_cons_of_mem _ (ih hp)
    · simp only [heapRemove, if_neg hc] at hp
      rcases List.mem_cons.mp hp with hh | ht
      · exact hh ▸ List.mem_cons_self _ _
      · exact List.mem_cons_of_mem _ (ih ht)

theorem heapLookup_heapRemove_ne {T : Type} (h : List (Nat × T)) (c b : Nat)
    (hne : b ≠ c) : heapLookup (heapRemove h c) b = heapLookup h b := by
  induction h with
  | nil => rfl
  | cons x t ih =>
    obtain ⟨a, v⟩ := x
    by_cases hc : a = c
    · have hab : a ≠ b := by omega
      simp only [heapRemove, if_pos hc, heapLookup, if_neg hab]
      exact ih
    · simp only [heapRemove, if_neg hc, heapLookup]
      by_cases hab : a = b
      · simp [if_pos hab]
      · simp only [if_neg hab]
        exact ih

theorem mem_foldl_remove {T : Type} (l : List (Nat × Nat)) (h : List (Nat × T))
    {p : Nat × T} (hp : p ∈ l.foldl (fun h2 e => heapRemove h2 e.1) h) : p ∈ h := by
  induction l generalizing h with
  | nil => exact hp
  | cons e t ih => exact mem_heapRemove (ih (heapRemove h e.1) hp)

theorem heapLookup_foldl_remove {T : Type} (l : List (Nat × Nat)) (h : List (Nat × T))
    (b : Nat) (hb : ∀ e ∈ l, e.1 ≠ b) :
    heapLookup (l.foldl (fun h2 e => heapRemove h2 e.1) h) b = heapLookup h b := by
  induction l generalizing h with
  | nil => rfl
  | cons e t ih =>
    rw [List.foldl_cons, ih (heapRemove h e.1) (fun x hx => hb x (List.mem_cons_of_mem e hx))]
    exact heapLookup_heapRemove_ne h e.1 b (Ne.symm (hb e (List.mem_cons_self e t)))

theorem goodState_pinNew {T : Type} {s : GState T} (h : GoodState s) :
    GoodState (pinNew s) := by
  obtain ⟨h1, h2, h3, h4, h5, h6, h7, h8, h9, h10, h11, h12, h13⟩ := h
  refine ⟨h1, ?_, ?_, h4, h5, h6, h7, h8, h9, h10, h11, h12, h13⟩
  · intro q hq
    have hq2 : q ∈ (s.nextPid, s.globalEpoch) :: s.pins := hq
    rcases List.mem_cons.mp hq2 with hq3 | hq3
    · subst hq3
      show s.nextPid < s.nextPid + 1
      omega
    · show q.1 < s.nextPid + 1
      exact Nat.lt_succ_of_lt (h2 q hq3)
  · intro q hq
    have hq2 : q ∈ (s.nextPid, s.globalEpoch) :: s.pins := hq
    rcases List.mem_cons.mp hq2 with hq3 | hq3
    · subst hq3
      exact ⟨le_refl _, Nat.le_succ _⟩
    · exact h3 q hq3

theorem goodState_swapNone {T : Type} {s : GState T} (h : GoodState s) :
    GoodState { s with slot := none, slotTag := none } := by
  obtain ⟨h1, h2, h3, h4, h5, h6, h7, _, _, _, _, _, _⟩ := h
  exact ⟨h1, h2, h3, h4, h5, h6, h7, by simp, by simp, by simp, by simp, by simp, by simp⟩

theorem goodState_retire_noSlot {T : Type} {s : GState T} (h : GoodState s)
    (hs : s.slot = none) (a : Nat) (ha : a < s.nextAddr)
    (hlog : a ∉ addrsOf s.retiredLog) : GoodState (retire s a) := by
  obtain ⟨h1, h2, h3, h4, h5, h6, h7, h8, h9, h10, h11, h12, h13⟩ := h
  refine ⟨h1, h2, h3, ?_, h5, ?_, ?_, ?_, ?_, ?_, ?_, ?_, h13⟩
  · intro e he
    have he2 : e ∈ (a, s.globalEpoch) :: s.writerBag := he
    rcases List.mem_cons.mp he2 with he3 | he3
    · subst he3; exact ha
    · exact h4 e he3
  · intro e he
    have he2 : e ∈ (a, s.globalEpoch) :: s.retiredLog := he
    rcases List.mem_cons.mp he2 with he3 | he3
    · subst he3; exact ha
    · exact h6 e he3
  · exact List.nodup_cons.mpr ⟨hlog, h7⟩
  all_goals simp [retire, hs]

theorem goodState_flushBag {T : Type} {s : GState T} (h : GoodState s) :
    GoodState (flushBag s) := by
  obtain ⟨h1, h2, h3, h4, h5, h6, h7, h8, h9, h10, h11, h12, h13⟩ := h
  refine ⟨h1, h2, h3, ?_, ?_, h6, h7, h8, h9, ?_, ?_, h12, h13⟩
  · intro e he
    simp [flushBag] at he
  · intro e he
    have he2 : e ∈ s.globalGarbage ++ s.writerBag := he
    rcases List.mem_append.mp he2 with he3 | he3
    · exact h5 e he3
    · exact h4 e he3
  · intro a ha
    simp [flushBag, addrsOf]
  · intro a ha hc
    have hc2 : a ∈ addrsOf (s.globalGarbage ++ s.writerBag) := hc
    rw [addrsOf, List.map_append] at hc2
    rcases List.mem_append.mp hc2 with hc3 | hc3
    · exact h11 a ha hc3
    · exact h10 a ha hc3

theorem goodState_tryAdvance {T : Type} {s : GState T} (h : GoodState s) :
    GoodState (tryAdvance s) := by
  by_cases hc : s.pins.all (fun q => q.2 == s.globalEpoch) = true
  · obtain ⟨h1, h2, h3, h4, h5, h6, h7, h8, h9, h10, h11, h12, h13⟩ := h
    unfold tryAdvance
    rw [if_pos hc]
    refine ⟨h1, h2, ?_, h4, h5, h6, h7, h8, h9, h10, h11, h12, h13⟩
    intro q hq
    have heq : q.2 = s.globalEpoch := by simpa using List.all_eq_true.mp hc q hq
    constructor
    · show q.2 ≤ s.globalEpoch + 1
      omega
    · show s.globalEpoch + 1 ≤ q.2 + 1
      omega
  · unfold tryAdvance
    rw [if_neg hc]
    exact h

theorem goodState_collectStep {T : Type} {s : GState T} (h : GoodState s) :
    GoodState (collectStep s) := by
  obtain ⟨h1, h2, h3, h4, h5, h6, h7, h8, h9, h10, h11, h12, h13⟩ := h
  refine ⟨?_, h2, h3, h4, ?_, h6, h7, h8, ?_, h10, ?_, h12, h13⟩
  · intro p hp
    have hp2 : p ∈ (s.globalGarbage.filter (fun e => decide (e.2 + 2 ≤ s.globalEpoch))).foldl
        (fun h2 e => heapRemove h2 e.1) s.heap := hp
    exact h1 p (mem_foldl_remove _ _ hp2)
  · intro e he
    have he2 : e ∈ s.globalGarbage.filter (fun e => decide (¬ (e.2 + 2 ≤ s.globalEpoch))) := he
    exact h5 e (List.mem_filter.mp he2).1
  · intro a ha
    have hne : ∀ e ∈ s.globalGarbage.filter (fun e => decide (e.2 + 2 ≤ s.globalEpoch)), e.1 ≠ a := by
      intro e he heq
      exact h11 a ha (List.mem_map.mpr ⟨e, (List.mem_filter.mp he).1, heq⟩)
    show (heapLookup ((s.globalGarbage.filter (fun e => decide (e.2 + 2 ≤ s.globalEpoch))).foldl
        (fun h2 e => heapRemove h2 e.1) s.heap) a).isSome = true
    rw [heapLookup_foldl_remove _ _ _ hne]
    exact h9 a ha
  · intro a ha hc
    have hc2 : a ∈ addrsOf (s.globalGarbage.filter (fun e => decide (¬ (e.2 + 2 ≤ s.globalEpoch)))) := hc
    rw [addrsOf] at hc2
    obtain ⟨e, he, heq⟩ := List.mem_map.mp hc2
    exact h11 a ha (List.mem_map.mpr ⟨e, (List.mem_filter.mp he).1, heq⟩)

theorem goodState_unpin {T : Type} {s : GState T} (h : GoodState s) (pid : Nat) :
    GoodState (unpin s pid) := by
  obtain ⟨h1, h2, h3, h4, h5, h6, h7, h8, h9, h10, h11, h12, h13⟩ := h
  refine ⟨h1, ?_, ?_, h4, h5, h6, h7, h8, h9, h10, h11, h12, h13⟩
  · intro q hq
    have hq2 : q ∈ s.pins.filter (fun q => q.1 != pid) := hq
    exact h2 q (List.mem_filter.mp hq2).1
  · intro q hq
    have hq2 : q ∈ s.pins.filter (fun q => q.1 != pid) := hq
    exact h3 q (List.mem_filter.mp hq2).1

theorem sendStep_eq_none {T : Type} (s : GState T) (v : T) (hs : s.slot = none) :
    sendStep s v = { s with heap := (s.nextAddr, v) :: s.heap, nextAddr := s.nextAddr + 1,
                            slot := some s.nextAddr, slotTag := some (s.sendCount + 1),
                            sendCount := s.sendCount + 1 } := by
  unfold sendStep
  rw [hs]

theorem sendStep_eq_some {T : Type} (s : GState T) (v : T) (p : Nat) (hs : s.slot = some p) :
    sendStep s v = retire { s with heap := (s.nextAddr, v) :: s.heap, nextAddr := s.nextAddr + 1,
                                   slot := some s.nextAddr, slotTag := some (s.sendCount + 1),
                                   sendCount := s.sendCount + 1 } p := by
  unfold sendStep
  rw [hs]

theorem goodState_sendStep {T : Type} {s : GState T} (h : GoodState s) (v : T) :
    GoodState (sendStep s v) := by
  obtain ⟨h1, h2, h3, h4, h5, h6, h7, h8, h9, h10, h11, h12, h13⟩ := h
  cases hs : s.slot with
  | none =>
    rw [sendStep_eq_none s v hs]
    refine ⟨?_, h2, h3, ?_, ?_, ?_, h7, ?_, ?_, ?_, ?_, ?_, ?_⟩
    · intro p hp
      have hp2 : p ∈ (s.nextAddr, v) :: s.heap := hp
      rcases List.mem_cons.mp hp2 with hp3 | hp3
      · subst hp3
        show s.nextAddr < s.nextAddr + 1
        omega
      · show p.1 < s.nextAddr + 1
        exact Nat.lt_succ_of_lt (h1 p hp3)
    · intro e he
      exact Nat.lt_succ_of_lt (h4 e he)
    · intro e he
      exact Nat.lt_succ_of_lt (h5 e he)
    · intro e he
      exact Nat.lt_succ_of_lt (h6 e he)
    · intro a ha
      have ha2 : a ∈ (some s.nextAddr).toList := ha
      simp at ha2
      subst ha2
      show s.nextAddr < s.nextAddr + 1
      omega
    · intro a ha
      have ha2 : a ∈ (some s.nextAddr).toList := ha
      simp at ha2
      subst ha2
      show (heapLookup ((s.nextAddr, v) :: s.heap) s.nextAddr).isSome = true
      simp [heapLookup]
    · intro a ha hc
      have ha2 : a ∈ (some s.nextAddr).toList := ha
      simp at ha2
      subst ha2
      obtain ⟨e, he, heq⟩ := List.mem_map.mp hc
      have := h4 e he
      omega
    · intro a ha hc
      have ha2 : a ∈ (some s.nextAddr).toList := ha
      simp at ha2
      subst ha2
      obtain ⟨e, he, heq⟩ := List.mem_map.mp hc
      have := h5 e he
      omega
    · intro a ha hc
      have ha2 : a ∈ (some s.nextAddr).toList := ha
      simp at ha2
      subst ha2
      obtain ⟨e, he, heq⟩ := List.mem_map.mp hc
      have := h6 e he
      omega
    · intro k hk
      have hk2 : k ∈ (some (s.sendCount + 1)).toList := hk
      simp at hk2
      subst hk2
      exact le_refl _
  | some p =>
    have hp : p < s.nextAddr := h8 p (by simp [hs])
    have hplog : p ∉ addrsOf s.retiredLog := h12 p (by simp [hs])
    have hpbag : p ∉ addrsOf s.writerBag := h10 p (by simp [hs])
    rw [sendStep_eq_some s v p hs]
    refine ⟨?_, h2, h3, ?_, ?_, ?_, ?_, ?_, ?_, ?_, ?_, ?_, ?_⟩
    · intro q hq
      have hq2 : q ∈ (s.nextAddr, v) :: s.heap := hq
      rcases List.mem_cons.mp hq2 with hq3 | hq3
      · subst hq3
        show s.nextAddr < s.nextAddr + 1
        omega
      · show q.1 < s.nextAddr + 1
        exact Nat.lt_succ_of_lt (h1 q hq3)
    · intro e he
      have he2 : e ∈ (p, s.globalEpoch) :: s.writerBag := he
      rcases List.mem_cons.mp he2 with he3 | he3
      · subst he3
        show p < s.nextAddr + 1
        omega
      · exact Nat.lt_succ_of_lt (h4 e he3)
    · intro e he
      exact Nat.lt_succ_of_lt (h5 e he)
    · intro e he
      have he2 : e ∈ (p, s.globalEpoch) :: s.retiredLog := he
      rcases List.mem_cons.mp he2 with he3 | he3
      · subst he3
        show p < s.nextAddr + 1
        omega
      · exact Nat.lt_succ_of_lt (h6 e he3)
    · exact List.nodup_cons.mpr ⟨hplog, h7⟩
    · intro a ha
      have ha2 : a ∈ (some s.nextAddr).toList := ha
      simp at ha2
      subst ha2
      show s.nextAddr < s.nextAddr + 1
      omega
    · intro a ha
      have ha2 : a ∈ (some s.nextAddr).toList := ha
      simp at ha2
      subst ha2
      show (heapLookup ((s.nextAddr, v) :: s.heap) s.nextAddr).isSome = true
      simp [heapLookup]
    · intro a ha hc
      have ha2 : a ∈ (some s.nextAddr).toList := ha
      simp at ha2
      subst ha2
      have hc2 : s.nextAddr ∈ addrsOf ((p, s.globalEpoch) :: s.writerBag) := hc
      obtain ⟨e, he, heq⟩ := List.mem_map.mp hc2
      rcases List.mem_cons.mp he with he3 | he3
      · subst he3
        simp at heq
        omega
      · have := h4 e he3
        omega
    · intro a ha hc
      have ha2 : a ∈ (some s.nextAddr).toList := ha
      simp at ha2
      subst ha2
      obtain ⟨e, he, heq⟩ := List.mem_map.mp hc
      have := h5 e he
      omega
    · intro a ha hc
      have ha2 : a ∈ (some s.nextAddr).toList := ha
      simp at ha2
      subst ha2
      have hc2 : s.nextAddr ∈ addrsOf ((p, s.globalEpoch) :: s.retiredLog) := hc
      obtain ⟨e, he, heq⟩ := List.mem_map.mp hc2
      rcases List.mem_cons.mp he with he3 | he3
      · subst he3
        simp at heq
        omega
      · have := h6 e he3
        omega
    · intro k hk
      have hk2 : k ∈ (some (s.sendCount + 1)).toList := hk
      simp at hk2
      subst hk2
      exact le_refl _

theorem borrowStep_fst_none {T : Type} (s : GState T) (hs : s.slot = none) :
    (borrowStep s).1 = s := by
  unfold borrowStep
  rw [hs]

theorem borrowStep_fst_some {T : Type} (s : GState T) (a : Nat) (hs : s.slot = some a) :
    (borrowStep s).1 = pinNew s := by
  unfold borrowStep
  rw [hs]

theorem goodState_borrowFst {T : Type} {s : GState T} (h : GoodState s) :
    GoodState (borrowStep s).1 := by
  cases hs : s.slot with
  | none => rw [borrowStep_fst_none s hs]; exact h
  | some a => rw [borrowStep_fst_some s a hs]; exact goodState_pinNew h

theorem dropSenderStep_eq_none {T : Type} (s : GState T) (hs : s.slot = none) :
    dropSenderStep s
      = unpin (collectStep (tryAdvance (flushBag
          { pinNew s with slot := none, slotTag := none }))) s.nextPid := by
  unfold dropSenderStep
  rw [hs]

theorem dropSenderStep_eq_some {T : Type} (s : GState T) (p : Nat) (hs : s.slot = some p) :
    dropSenderStep s
      = unpin (collectStep (tryAdvance (flushBag
          (retire { pinNew s with slot := none, slotTag := none } p)))) s.nextPid := by
  unfold dropSenderStep
  rw [hs]

theorem goodState_dropSenderStep {T : Type} {s : GState T} (h : GoodState s) :
    GoodState (dropSenderStep s) := by
  cases hs : s.slot with
  | none =>
    rw [dropSenderStep_eq_none s hs]
    exact goodState_unpin (goodState_collectStep (goodState_tryAdvance
      (goodState_flushBag (goodState_swapNone (goodState_pinNew h))))) _
  | some p =>
    have hp : p < s.nextAddr := h.2.2.2.2.2.2.2.1 p (by simp [hs])
    have hplog : p ∉ addrsOf s.retiredLog :=
      h.2.2.2.2.2.2.2.2.2.2.2.1 p (by simp [hs])
    rw [dropSenderStep_eq_some s p hs]
    have hgs : GoodState (retire { pinNew s with slot := none, slotTag := none } p) :=
      goodState_retire_noSlot (goodState_swapNone (goodState_pinNew h)) rfl p hp hplog
    exact goodState_unpin (goodState_collectStep (goodState_tryAdvance
      (goodState_flushBag hgs))) _

theorem goodState_step {T : Type} {s : GState T} (h : GoodState s) (o : Op T) :
    GoodState (step s o) := by
  cases o with
  | send v => exact goodState_sendStep h v
  | dropSender => exact goodState_dropSenderStep h
  | doBorrow => exact goodState_borrowFst h
  | dropBorrow pid => exact goodState_unpin h pid
  | dropReceiver => exact h
  | advanceOp => exact goodState_tryAdvance h
  | collectOp => exact goodState_collectStep h

theorem goodState_run {T : Type} {s : GState T} (h : GoodState s) (ops : List (Op T)) :
    GoodState (run s ops) := by
  induction ops generalizing s with
  | nil => exact h
  | cons o t ih => exact ih (goodState_step h o)

theorem goodState_newChan {T : Type} (v : T) : GoodState (newChan v) := by
  refine ⟨?_, ?_, ?_, ?_, ?_, ?_, ?_, ?_, ?_, ?_, ?_, ?_, ?_⟩ <;>
    simp [newChan, addrsOf, heapLookup]

theorem goodState_emptyChan {T : Type} : GoodState (emptyChan : GState T) := by
  refine ⟨?_, ?_, ?_, ?_, ?_, ?_, ?_, ?_, ?_, ?_, ?_, ?_, ?_⟩ <;>
    simp [emptyChan, addrsOf]

/-- A participant pin that is still held: it is registered with its
original local epoch, and its id is below the pid allocation counter. -/
def pinLive {T : Type} (pid e : Nat) (s : GState T) : Prop :=
  (pid, e) ∈ s.pins ∧ pid < s.nextPid

/-- The induction invariant tying a live `Borrow` to its snapshot: the
borrowed address still holds the snapshot value, the borrow's pin is
still registered at its original epoch `e`, and any garbage entry for the
borrowed address was retired no earlier than `e` — which, with the
grace-period bound from `GoodState`, keeps it unreclaimable. -/
def BorrowInv {T : Type} (b : Borrow) (v : T) (e : Nat) (s : GState T) : Prop :=
  GoodState s ∧
  heapLookup s.heap b.addr = some v ∧
  pinLive b.pid e s ∧
  b.addr < s.nextAddr ∧
  (∀ er, (b.addr, er) ∈ s.writerBag → e ≤ er) ∧
  (∀ er, (b.addr, er) ∈ s.globalGarbage → e ≤ er)

theorem tryAdvance_fields {T : Type} (s : GState T) :
    (tryAdvance s).heap = s.heap ∧ (tryAdvance s).nextAddr = s.nextAddr ∧
    (tryAdvance s).pins = s.pins ∧ (tryAdvance s).nextPid = s.nextPid ∧
    (tryAdvance s).writerBag = s.writerBag ∧
    (tryAdvance s).globalGarbage = s.globalGarbage := by
  unfold tryAdvance
  split <;> exact ⟨rfl, rfl, rfl, rfl, rfl, rfl⟩

theorem borrowInv_pinNew {T : Type} {b : Borrow} {v : T} {e : Nat} {s : GState T}
    (h : BorrowInv b v e s) : BorrowInv b v e (pinNew s) := by
  obtain ⟨hg, hheap, ⟨hpin, hpid⟩, haddr, hbag, hgg⟩ := h
  refine ⟨goodState_pinNew hg, hheap, ⟨?_, ?_⟩, haddr, hbag, hgg⟩
  · exact List.mem_cons_of_mem _ hpin
  · exact Nat.lt_succ_of_lt hpid

theorem borrowInv_swapNone {T : Type} {b : Borrow} {v : T} {e : Nat} {s : GState T}
    (h : BorrowInv b v e s) : BorrowInv b v e { s with slot := none, slotTag := none } := by
  obtain ⟨hg, hheap, hpin, haddr, hbag, hgg⟩ := h
  exact ⟨goodState_swapNone hg, hheap, hpin, haddr, hbag, hgg⟩

theorem borrowInv_retireCur {T : Type} {b : Borrow} {v : T} {e : Nat} {s : GState T}
    (h : BorrowInv b v e s) (hs : s.slot = none) (p : Nat) (hp : p < s.nextAddr)
    (hplog : p ∉ addrsOf s.retiredLog) : BorrowInv b v e (retire s p) := by
  obtain ⟨hg, hheap, ⟨hpin, hpid⟩, haddr, hbag, hgg⟩ := h
  have he_le : e ≤ s.globalEpoch := (hg.2.2.1 (b.pid, e) hpin).1
  refine ⟨goodState_retire_noSlot hg hs p hp hplog, hheap, ⟨hpin, hpid⟩, haddr, ?_, hgg⟩
  intro er her
  have her2 : (b.addr, er) ∈ (p, s.globalEpoch) :: s.writerBag := her
  rcases List.mem_cons.mp her2 with her3 | her3
  · have hereq : er = s.globalEpoch := congrArg Prod.snd her3
    omega
  · exact hbag er her3

theorem borrowInv_flushBag {T : Type} {b : Borrow} {v : T} {e : Nat} {s : GState T}
    (h : BorrowInv b v e s) : BorrowInv b v e (flushBag s) := by
  obtain ⟨hg, hheap, hpin, haddr, hbag, hgg⟩ := h
  refine ⟨goodState_flushBag hg, hheap, hpin, haddr, ?_, ?_⟩
  · intro er her
    simp [flushBag] at her
  · intro er her
    have her2 : (b.addr, er) ∈ s.globalGarbage ++ s.writerBag := her
    rcases List.mem_append.mp her2 with her3 | her3
    · exact hgg er her3
    · exact hbag er her3

theorem borrowInv_tryAdvance {T : Type} {b : Borrow} {v : T} {e : Nat} {s : GState T}
    (h : BorrowInv b v e s) : BorrowInv b v e (tryAdvance s) := by
  obtain ⟨hg, hheap, ⟨hpin, hpid⟩, haddr, hbag, hgg⟩ := h
  obtain ⟨f1, f2, f3, f4, f5, f6⟩ := tryAdvance_fields s
  refine ⟨goodState_tryAdvance hg, ?_, ⟨?_, ?_⟩, ?_, ?_, ?_⟩
  · rw [f1]; exact hheap
  · rw [f3]; exact hpin
  · rw [f4]; exact hpid
  · rw [f2]; exact haddr
  · intro er her
    rw [f5] at her
    exact hbag er her
  · intro er her
    rw [f6] at her
    exact hgg er her

theorem borrowInv_collectStep {T : Type} {b : Borrow} {v : T} {e : Nat} {s : GState T}
    (h : BorrowInv b v e s) : BorrowInv b v e (collectStep s) := by
  obtain ⟨hg, hheap, ⟨hpin, hpid⟩, haddr, hbag, hgg⟩ := h
  have he_le : e ≤ s.globalEpoch := (hg.2.2.1 (b.pid, e) hpin).1
  have hg_le : s.globalEpoch ≤ e + 1 := (hg.2.2.1 (b.pid, e) hpin).2
  have hne : ∀ x ∈ s.globalGarbage.filter (fun x => decide (x.2 + 2 ≤ s.globalEpoch)),
      x.1 ≠ b.addr := by
    intro x hx heq
    have hx2 := List.mem_filter.mp hx
    have hxmem : (b.addr, x.2) ∈ s.globalGarbage := by
      rw [← heq, Prod.mk.eta]
      exact hx2.1
    have hxe : e ≤ x.2 := hgg x.2 hxmem
    have hxfree : x.2 + 2 ≤ s.globalEpoch := by simpa using hx2.2
    omega
  refine ⟨goodState_collectStep hg, ?_, ⟨hpin, hpid⟩, haddr, hbag, ?_⟩
  · show heapLookup ((s.globalGarbage.filter (fun x => decide (x.2 + 2 ≤ s.globalEpoch))).foldl
        (fun h2 x => heapRemove h2 x.1) s.heap) b.addr = some v
    rw [heapLookup_foldl_remove _ _ _ hne]
    exact hheap
  · intro er her
    have her2 : (b.addr, er) ∈ s.globalGarbage.filter
        (fun x => decide (¬ (x.2 + 2 ≤ s.globalEpoch))) := her
    exact hgg er (List.mem_filter.mp her2).1

theorem borrowInv_unpin {T : Type} {b : Borrow} {v : T} {e : Nat} {s : GState T}
    (h : BorrowInv b v e s) (q : Nat) (hq : q ≠ b.pid) :
    BorrowInv b v e (unpin s q) := by
  obtain ⟨hg, hheap, ⟨hpin, hpid⟩, haddr, hbag, hgg⟩ := h
  refine ⟨goodState_unpin hg q, hheap, ⟨?_, hpid⟩, haddr, hbag, hgg⟩
  have hbne : (((b.pid, e) : Nat × Nat).1 != q) = true := by
    simp only [bne_iff_ne]
    exact fun hc => hq hc.symm
  exact List.mem_filter.mpr ⟨hpin, hbne⟩

theorem borrowInv_sendStep {T : Type} {b : Borrow} {v : T} {e : Nat} {s : GState T}
    (h : BorrowInv b v e s) (w : T) : BorrowInv b v e (sendStep s w) := by
  obtain ⟨hg, hheap, ⟨hpin, hpid⟩, haddr, hbag, hgg⟩ := h
  have he_le : e ≤ s.globalEpoch := (hg.2.2.1 (b.pid, e) hpin).1
  have hlook : heapLookup ((s.nextAddr, w) :: s.heap) b.addr = some v := by
    rw [heapLookup_cons_ne s.heap s.nextAddr b.addr w (by omega)]
    exact hheap
  cases hs : s.slot with
  | none =>
    rw [sendStep_eq_none s w hs]
    refine ⟨?_, hlook, ⟨hpin, hpid⟩, by show b.addr < s.nextAddr + 1; omega, hbag, hgg⟩
    rw [← sendStep_eq_none s w hs]
    exact goodState_sendStep hg w
  | some p =>
    rw [sendStep_eq_some s w p hs]
    refine ⟨?_, hlook, ⟨hpin, hpid⟩, by show b.addr < s.nextAddr + 1; omega, ?_, hgg⟩
    · rw [← sendStep_eq_some s w p hs]
      exact goodState_sendStep hg w
    · intro er her
      have her2 : (b.addr, er) ∈ (p, s.globalEpoch) :: s.writerBag := her
      rcases List.mem_cons.mp her2 with her3 | her3
      · have hereq : er = s.globalEpoch := congrArg Prod.snd her3
        omega
      · exact hbag er her3

theorem borrowInv_step {T : Type} {b : Borrow} {v : T} {e : Nat} {s : GState T}
    (h : BorrowInv b v e s) (o : Op T)
    (ho : (match o with | Op.dropBorrow q => q != b.pid | _ => true) = true) :
    BorrowInv b v e (step s o) := by
  cases o with
  | send w => exact borrowInv_sendStep h w
  | dropSender =>
    have hpid : b.pid < s.nextPid := h.2.2.1.2
    cases hs : s.slot with
    | none =>
      show BorrowInv b v e (dropSenderStep s)
      rw [dropSenderStep_eq_none s hs]
      exact borrowInv_unpin
        (borrowInv_collectStep (borrowInv_tryAdvance (borrowInv_flushBag
          (borrowInv_swapNone (borrowInv_pinNew h))))) s.nextPid (by omega)
    | some p =>
      have hp : p < s.nextAddr := h.1.2.2.2.2.2.2.2.1 p (by simp [hs])
      have hplog : p ∉ addrsOf s.retiredLog :=
        h.1.2.2.2.2.2.2.2.2.2.2.2.1 p (by simp [hs])
      show BorrowInv b v e (dropSenderStep s)
      rw [dropSenderStep_eq_some s p hs]
      exact borrowInv_unpin
        (borrowInv_collectStep (borrowInv_tryAdvance (borrowInv_flushBag
          (borrowInv_retireCur (borrowInv_swapNone (borrowInv_pinNew h)) rfl p hp hplog))))
        s.nextPid (by omega)
  | doBorrow =>
    cases hs : s.slot with
    | none =>
      show BorrowInv b v e (borrowStep s).1
      rw [borrowStep_fst_none s hs]
      exact h
    | some a =>
      show BorrowInv b v e (borrowStep s).1
      rw [borrowStep_fst_some s a hs]
      exact borrowInv_pinNew h
  | dropBorrow q =>
    have hq : q ≠ b.pid := by simpa using ho
    exact borrowInv_unpin h q hq
  | dropReceiver => exact h
  | advanceOp => exact borrowInv_tryAdvance h
  | collectOp => exact borrowInv_collectStep h

theorem borrowInv_run {T : Type} {b : Borrow} {v : T} {e : Nat} {s : GState T}
    (h : BorrowInv b v e s) (ops : List (Op T))
    (hops : noDropBorrow b.pid ops = true) : BorrowInv b v e (run s ops) := by
  induction ops generalizing s with
  | nil => exact h
  | cons o t ih =>
    rw [noDropBorrow, List.all_cons, Bool.and_eq_true] at hops
    exact ih (borrowInv_step h o hops.1) hops.2

theorem borrowInv_establish {T : Type} {s : GState T} (h : GoodState s) {b : Borrow}
    (hb : (borrowStep s).2 = some b) :
    ∃ v, derefBorrow (borrowStep s).1 b = some v ∧
         BorrowInv b v s.globalEpoch (borrowStep s).1 := by
  cases hs : s.slot with
  | none =>
    have hnone : (borrowStep s).2 = none := by
      unfold borrowStep
      rw [hs]
    rw [hnone] at hb
    exact absurd hb (by simp)
  | some a =>
    have hb2 : b = ⟨s.nextPid, a⟩ := by
      have hsome : (borrowStep s).2 = some ⟨s.nextPid, a⟩ := by
        unfold borrowStep
        rw [hs]
      rw [hsome] at hb
      exact (Option.some.inj hb).symm
    subst hb2
    have hsome2 : (heapLookup s.heap a).isSome = true := h.2.2.2.2.2.2.2.2.1 a (by simp [hs])
    obtain ⟨v, hv⟩ := Option.isSome_iff_exists.mp hsome2
    have hfst : (borrowStep s).1 = pinNew s := borrowStep_fst_some s a hs
    refine ⟨v, ?_, ?_⟩
    · rw [hfst]
      exact hv
    · rw [hfst]
      refine ⟨goodState_pinNew h, hv, ⟨List.mem_cons_self _ _, Nat.lt_succ_self _⟩,
              h.2.2.2.2.2.2.2.1 a (by simp [hs]), ?_, ?_⟩
      · intro er her
        exact absurd (List.mem_map.mpr ⟨(a, er), her, rfl⟩)
          (h.2.2.2.2.2.2.2.2.2.1 a (by simp [hs]))
      · intro er her
        exact absurd (List.mem_map.mpr ⟨(a, er), her, rfl⟩)
          (h.2.2.2.2.2.2.2.2.2.2.1 a (by simp [hs]))

/-- C2: a `Borrow` obtained while value `v` was current dereferences to
`v` at every later point: further sends, destruction of the Sender,
destruction of every Receiver, and any epoch advances and collections
never mutate the snapshot and never reclaim its memory while the borrow
is live. -/
theorem borrow_frozen {T : Type} (s : GState T) (h : GoodState s) (b : Borrow) (v : T)
    (hb : (borrowStep s).2 = some b)
    (hv : derefBorrow (borrowStep s).1 b = some v)
    (ops : List (Op T)) (hops : noDropBorrow b.pid ops = true) :
    derefBorrow (run (borrowStep s).1 ops) b = some v := by
  obtain ⟨v', hv', hinv⟩ := borrowInv_establish h hb
  rw [hv] at hv'
  have hvv : v = v' := Option.some.inj hv'
  subst hvv
  exact (borrowInv_run hinv ops hops).2.1

/-- Witness for C2: a borrow of 42 still dereferences to 42 after two
more sends, the sender drop, a receiver drop, an epoch advance and a
collection. -/
theorem borrow_frozen_witness :
    derefBorrow (run (borrowStep (newChan (42 : Nat))).1
      [Op.send 7, Op.send 9, Op.dropSender, Op.dropReceiver, Op.advanceOp, Op.collectOp])
      ⟨0, 0⟩ = some 42 :=
  borrow_frozen (newChan 42) (goodState_newChan 42) ⟨0, 0⟩ 42 rfl rfl _ (by decide)

/-- C10: dereferencing a Borrow is total: `borrow()` builds a Borrow only
from a non-null pointer, and for as long as the Borrow lives the pointer
stays valid, so the `unwrap` inside `Deref` can never fail. -/
theorem borrow_deref_total {T : Type} (s : GState T) (h : GoodState s) (b : Borrow)
    (hb : (borrowStep s).2 = some b)
    (ops : List (Op T)) (hops : noDropBorrow b.pid ops = true) :
    (derefBorrow (run (borrowStep s).1 ops) b).isSome = true := by
  obtain ⟨v, hv, hinv⟩ := borrowInv_establish h hb
  have hrun := (borrowInv_run hinv ops hops).2.1
  show (heapLookup (run (borrowStep s).1 ops).heap b.addr).isSome = true
  rw [hrun]
  rfl

/-- Witness for C10: the borrow taken on `new 5` dereferences to a value
(never the unreachable null case) after the sender drop, a collection and
a further borrow. -/
theorem borrow_deref_total_witness :
    (derefBorrow (run (borrowStep (newChan (5 : Nat))).1
      [Op.dropSender, Op.collectOp, Op.doBorrow]) ⟨0, 0⟩).isSome = true :=
  borrow_deref_total (newChan 5) (goodState_newChan 5) ⟨0, 0⟩ rfl _ (by decide)

/-- C6: `borrow()` returns `none` exactly when the slot is empty — and
then leaves the state unchanged, the transient pin released — while on a
non-empty slot it returns a `Borrow` of the current value whose pin is
registered at the current epoch and stays registered for as long as the
Borrow is not dropped. -/
theorem borrow_contract {T : Type} (s : GState T) (h : GoodState s) :
    (s.slot = none → borrowStep s = (s, none)) ∧
    (∀ a, s.slot = some a →
      ∃ b : Borrow, (borrowStep s).2 = some b ∧ b.addr = a ∧
        derefBorrow (borrowStep s).1 b = heapLookup s.heap a ∧
        (heapLookup s.heap a).isSome = true ∧
        (borrowStep s).1.pins = (b.pid, s.globalEpoch) :: s.pins ∧
        (∀ ops : List (Op T), noDropBorrow b.pid ops = true →
          (b.pid, s.globalEpoch) ∈ (run (borrowStep s).1 ops).pins)) := by
  constructor
  · intro hs
    unfold borrowStep
    rw [hs]
  · intro a hs
    refine ⟨⟨s.nextPid, a⟩, ?_, rfl, ?_, ?_, ?_, ?_⟩
    · unfold borrowStep
      rw [hs]
    · rw [borrowStep_fst_some s a hs]
      rfl
    · exact h.2.2.2.2.2.2.2.2.1 a (by simp [hs])
    · rw [borrowStep_fst_some s a hs]
      rfl
    · intro ops hops
      have hb : (borrowStep s).2 = some ⟨s.nextPid, a⟩ := by
        unfold borrowStep
        rw [hs]
      obtain ⟨v, hv, hinv⟩ := borrowInv_establish h hb
      exact ((borrowInv_run hinv ops hops).2.2.1).1

/-- Witness for C6: on an empty channel `borrow` returns `none` with the
state untouched; on `new 9` the slot's value is present. -/
theorem borrow_contract_witness :
    borrowStep (emptyChan : GState Nat) = ((emptyChan : GState Nat), none) ∧
    (heapLookup (newChan (9 : Nat)).heap 0).isSome = true := by
  constructor
  · exact (borrow_contract (emptyChan : GState Nat) goodState_emptyChan).1 rfl
  · obtain ⟨b, hb, haddr, hd, hsome, hpins, hpers⟩ :=
      (borrow_contract (newChan (9 : Nat)) (goodState_newChan 9)).2 0 rfl
    exact hsome

/-- C9: `recv` and `borrow` agree on every reachable state: `recv`
returns `none` exactly when `borrow` returns `none`, and when both
succeed the value `recv` clones equals the value the Borrow dereferences
to (cloning a plain value is the identity). -/
theorem recv_borrow_agree {T : Type} (s : GState T) (h : GoodState s) :
    (recv s = none ↔ (borrowStep s).2 = none) ∧
    (∀ b : Borrow, (borrowStep s).2 = some b →
      recv s = derefBorrow (borrowStep s).1 b) := by
  cases hs : s.slot with
  | none =>
    have h1 : recv s = none := by
      unfold recv
      rw [hs]
    have h2 : (borrowStep s).2 = none := by
      unfold borrowStep
      rw [hs]
    refine ⟨⟨fun _ => h2, fun _ => h1⟩, ?_⟩
    intro b hb
    rw [h2] at hb
    exact absurd hb (by simp)
  | some a =>
    have hsome : (heapLookup s.heap a).isSome = true :=
      h.2.2.2.2.2.2.2.2.1 a (by simp [hs])
    have hrecv : recv s = heapLookup s.heap a := by
      unfold recv
      rw [hs]
    have hb2 : (borrowStep s).2 = some ⟨s.nextPid, a⟩ := by
      unfold borrowStep
      rw [hs]
    constructor
    · constructor
      · intro hr
        rw [hrecv] at hr
        rw [hr] at hsome
        exact absurd hsome (by simp)
      · intro hb
        rw [hb2] at hb
        exact absurd hb (by simp)
    · intro b hb
      rw [hb2] at hb
      have hbe : b = ⟨s.nextPid, a⟩ := (Option.some.inj hb).symm
      subst hbe
      rw [hrecv, borrowStep_fst_some s a hs]
      rfl

/-- Witness for C9: on `new 3` the received value equals the borrowed
value. -/
theorem recv_borrow_agree_witness :
    recv (newChan (3 : Nat)) = derefBorrow (borrowStep (newChan (3 : Nat))).1 ⟨0, 0⟩ :=
  (recv_borrow_agree (newChan 3) (goodState_newChan 3)).2 ⟨0, 0⟩ rfl

/-- C5: a value is retired exactly once, exactly when it leaves the
Slot: `send` retires the swapped-out previous value iff it was non-null,
the Sender's destructor retires the final value iff it was non-null, the
retirement history never contains an address twice, and the address
currently installed in the Slot is never in the retirement history. -/
theorem retire_exactly_once {T : Type} (s : GState T) (h : GoodState s) (v : T) :
    (s.slot = none →
      (sendStep s v).retiredLog = s.retiredLog ∧
      (dropSenderStep s).retiredLog = s.retiredLog) ∧
    (∀ p, s.slot = some p →
      p ∉ addrsOf s.retiredLog ∧
      (sendStep s v).retiredLog = (p, s.globalEpoch) :: s.retiredLog ∧
      (dropSenderStep s).retiredLog = (p, s.globalEpoch) :: s.retiredLog) ∧
    (addrsOf (sendStep s v).retiredLog).Nodup ∧
    (addrsOf (dropSenderStep s).retiredLog).Nodup ∧
    (∀ a, (sendStep s v).slot = some a → a ∉ addrsOf (sendStep s v).retiredLog) := by
  refine ⟨?_, ?_, ?_, ?_, ?_⟩
  · intro hs
    constructor
    · rw [sendStep_eq_none s v hs]
    · rw [dropSenderStep_eq_none s hs, retiredLog_pipeline]
      rfl
  · intro p hs
    refine ⟨h.2.2.2.2.2.2.2.2.2.2.2.1 p (by simp [hs]), ?_, ?_⟩
    · rw [sendStep_eq_some s v p hs]
      rfl
    · rw [dropSenderStep_eq_some s p hs, retiredLog_pipeline]
      rfl
  · exact (goodState_sendStep h v).2.2.2.2.2.2.1
  · exact (goodState_dropSenderStep h).2.2.2.2.2.2.1
  · intro a ha
    exact (goodState_sendStep h v).2.2.2.2.2.2.2.2.2.2.2.1 a (by simp [ha])

/-- Witness for C5: on `new 1`, sending 2 retires address 0 (the old
value) exactly once and the history stays duplicate-free. -/
theorem retire_exactly_once_witness :
    (sendStep (newChan (1 : Nat)) 2).retiredLog = [(0, 0)] ∧
    (addrsOf (sendStep (newChan (1 : Nat)) 2).retiredLog).Nodup := by
  have h := retire_exactly_once (newChan (1 : Nat)) (goodState_newChan 1) 2
  exact ⟨(h.2.1 0 rfl).2.1, h.2.2.1⟩

theorem sendCount_pipeline {T : Type} (s : GState T) (pid : Nat) :
    (unpin (collectStep (tryAdvance (flushBag s))) pid).sendCount = s.sendCount := by
  unfold unpin collectStep tryAdvance flushBag
  split <;> rfl

theorem slotTag_pipeline {T : Type} (s : GState T) (pid : Nat) :
    (unpin (collectStep (tryAdvance (flushBag s))) pid).slotTag = s.slotTag := by
  unfold unpin collectStep tryAdvance flushBag
  split <;> rfl

theorem sendCount_tryAdvance {T : Type} (s : GState T) :
    (tryAdvance s).sendCount = s.sendCount := by
  unfold tryAdvance
  split <;> rfl

theorem slotTag_tryAdvance {T : Type} (s : GState T) :
    (tryAdvance s).slotTag = s.slotTag := by
  unfold tryAdvance
  split <;> rfl

/-- The ghost fact used for monotone observation: the send-order index
`k1` that some earlier `recv` observed is below the send counter, so no
later state's slot can carry a strictly smaller index. -/
def TagGE {T : Type} (k1 : Nat) (s : GState T) : Prop :=
  k1 ≤ s.sendCount ∧ ∀ k2, s.slotTag = some k2 → k1 ≤ k2

theorem tagGE_sendStep {T : Type} {k1 : Nat} {s : GState T} (h : TagGE k1 s) (w : T) :
    TagGE k1 (sendStep s w) := by
  obtain ⟨hc, ht⟩ := h
  have h1 : (sendStep s w).sendCount = s.sendCount + 1 := by
    cases hs : s.slot with
    | none => rw [sendStep_eq_none s w hs]
    | some p => rw [sendStep_eq_some s w p hs]; rfl
  have h2 : (sendStep s w).slotTag = some (s.sendCount + 1) := by
    cases hs : s.slot with
    | none => rw [sendStep_eq_none s w hs]
    | some p => rw [sendStep_eq_some s w p hs]; rfl
  refine ⟨by omega, ?_⟩
  intro k2 hk2
  rw [h2] at hk2
  have hke := Option.some.inj hk2
  omega

theorem tagGE_dropSender {T : Type} {k1 : Nat} {s : GState T} (h : TagGE k1 s) :
    TagGE k1 (dropSenderStep s) := by
  obtain ⟨hc, ht⟩ := h
  have h1 : (dropSenderStep s).sendCount = s.sendCount := by
    cases hs : s.slot with
    | none => rw [dropSenderStep_eq_none s hs, sendCount_pipeline]; rfl
    | some p => rw [dropSenderStep_eq_some s p hs, sendCount_pipeline]; rfl
  have h2 : (dropSenderStep s).slotTag = none := by
    cases hs : s.slot with
    | none => rw [dropSenderStep_eq_none s hs, slotTag_pipeline]
    | some p => rw [dropSenderStep_eq_some s p hs, slotTag_pipeline]; rfl
  refine ⟨by omega, ?_⟩
  intro k2 hk2
  rw [h2] at hk2
  exact absurd hk2 (by simp)

theorem tagGE_step {T : Type} {k1 : Nat} {s : GState T} (h : TagGE k1 s) (o : Op T) :
    TagGE k1 (step s o) := by
  cases o with
  | send w => exact tagGE_sendStep h w
  | dropSender => exact tagGE_dropSender h
  | doBorrow =>
    show TagGE k1 (borrowStep s).1
    cases hs : s.slot with
    | none => rw [borrowStep_fst_none s hs]; exact h
    | some a => rw [borrowStep_fst_some s a hs]; exact h
  | dropBorrow pid => exact h
  | dropReceiver => exact h
  | advanceOp =>
    obtain ⟨hc, ht⟩ := h
    show TagGE k1 (tryAdvance s)
    refine ⟨by rw [sendCount_tryAdvance]; exact hc, ?_⟩
    intro k2 hk2
    rw [slotTag_tryAdvance] at hk2
    exact ht k2 hk2
  | collectOp => exact h

theorem tagGE_run {T : Type} {k1 : Nat} {s : GState T} (h : TagGE k1 s)
    (ops : List (Op T)) : TagGE k1 (run s ops) := by
  induction ops generalizing s with
  | nil => exact h
  | cons o t ih => exact ih (tagGE_step h o)

/-- C8: the values a Receiver observes through successive `recv` calls
are monotonically non-decreasing in send order: if one `recv` observed
the value installed by send number `k1` and a later `recv` (after any
further operations) observes the value installed by send number `k2`,
then `k1 ≤ k2` — a later receive never returns a strictly older value,
though intermediate sends may be skipped entirely. -/
theorem recv_monotone {T : Type} (s : GState T) (h : GoodState s)
    (ops1 ops2 : List (Op T)) (k1 k2 : Nat) (v1 v2 : T)
    (_hv1 : recv (run s ops1) = some v1)
    (ht1 : (run s ops1).slotTag = some k1)
    (_hv2 : recv (run s (ops1 ++ ops2)) = some v2)
    (ht2 : (run s (ops1 ++ ops2)).slotTag = some k2) :
    k1 ≤ k2 := by
  rw [run_append] at ht2
  have hg1 : GoodState (run s ops1) := goodState_run h ops1
  have hk1 : k1 ≤ (run s ops1).sendCount :=
    hg1.2.2.2.2.2.2.2.2.2.2.2.2 k1 (by simp [ht1])
  have hbase : TagGE k1 (run s ops1) := by
    refine ⟨hk1, ?_⟩
    intro k2' hk2'
    rw [ht1] at hk2'
    exact Nat.le_of_eq (Option.some.inj hk2')
  exact (tagGE_run hbase ops2).2 k2 ht2

/-- Witness for C8: after sending 5 (send number 1) the receiver sees 5;
after additionally sending 7 (send number 2) it sees 7, and 1 ≤ 2. -/
theorem recv_monotone_witness :
    recv (run (newChan (0 : Nat)) [Op.send 5]) = some 5 ∧
    recv (run (newChan (0 : Nat)) ([Op.send 5] ++ [Op.send 7])) = some 7 ∧
    (1 : Nat) ≤ 2 :=
  ⟨rfl, rfl,
   recv_monotone (newChan 0) (goodState_newChan 0) [Op.send 5] [Op.send 7]
     1 2 5 7 rfl rfl rfl rfl⟩

end Genzero
